import Mathlib

/-!
Verification development for the knolo-core retrieval engine.

The definitions below are a shallow embedding of the TypeScript sources:
the tokenizer (src/tokenize.ts), the KNS tie-break signature
(src/quality/signature.ts), shingle similarity and the MMR diversifier
(packages/core/src/quality), the positional inverted-index builder
(src/indexer.ts), the posting-stream scanner and query pipeline
(src/query.ts), the BM25L ranker (packages/core/src/rank.ts), the pack
loader (src/pack.ts) and the semantic build path (src/builder.ts,
packages/core/src/semantic.ts).

Modelling conventions:
 - JavaScript numbers are modelled as rationals; the only transcendental
   operation, Math.log inside the BM25L idf, is passed in as an explicit
   function argument (log : Rat → Rat) so that the rest of the pipeline
   stays exact and executable.  The real-valued twin of the ranker used
   for the numeric BM25L check works over the reals with Real.log.
 - JavaScript Maps are modelled as insertion-ordered association lists.
 - Unicode normalization (NFKD plus combining-mark stripping) is the
   identity on the ASCII inputs that appear in every concrete scenario;
   the character normalizer below is faithful on ASCII.
 - A scan of the posting stream that reads past the end of the array
   (which in JavaScript loops forever on undefined) is modelled as the
   result none.
-/

set_option linter.unusedVariables false
set_option linter.unreachableTactic false
set_option linter.unnecessarySeqFocus false
set_option linter.unusedTactic false

attribute [local semireducible] Rat.add Rat.sub Rat.mul Rat.inv Rat.ofScientific

namespace Knolo

/-! ## Tokenizer (src/tokenize.ts) -/

/-- Whitespace test matching the regex class backslash-s on ASCII input. -/
def isWsChar (c : Char) : Bool :=
  c = ' ' || c = '\t' || c = '\n' || c = '\r'

/-- Character-level normalization: lowercase letters and digits and the
hyphen and whitespace survive, uppercase letters are lowercased, every
other character becomes a space.  Faithful to normalize() on ASCII. -/
def normChar (c : Char) : Char :=
  if 97 ≤ c.toNat ∧ c.toNat ≤ 122 then c
  else if 65 ≤ c.toNat ∧ c.toNat ≤ 90 then Char.ofNat (c.toNat + 32)
  else if 48 ≤ c.toNat ∧ c.toNat ≤ 57 then c
  else if c = '-' then c
  else if isWsChar c then c
  else ' '

/-- String-level normalization, the per-character map of normChar. -/
def normStr (s : String) : String := String.mk (s.data.map normChar)

/-- Split a character list on whitespace runs, dropping empty fragments;
the accumulator holds the current fragment reversed. -/
def splitWsAux : List Char → List Char → List String
  | [], acc => if acc.isEmpty then [] else [String.mk acc.reverse]
  | c :: rest, acc =>
    if isWsChar c then
      if acc.isEmpty then splitWsAux rest []
      else String.mk acc.reverse :: splitWsAux rest []
    else splitWsAux rest (c :: acc)

/-- Split a string on whitespace runs, dropping empty fragments. -/
def splitWsStr (s : String) : List String := splitWsAux s.data []

/-- Token: a normalized term together with its 0-based ordinal position. -/
structure Token where
  term : String
  pos : ℕ
deriving DecidableEq

/-- tokenize() of src/tokenize.ts: normalize, split on whitespace runs,
number the kept tokens from 0. -/
def tokenize (text : String) : List Token :=
  (splitWsStr (normStr text)).enum.map (fun p => { term := p.2, pos := p.1 })

/-- Split the trimmed contents of a quoted phrase on whitespace; an
all-whitespace content yields the singleton list holding the empty string,
matching the JavaScript split of an empty string. -/
def phraseWords (content : List Char) : List String :=
  let ws := splitWsAux content []
  if ws.isEmpty then [String.mk []] else ws

/-- Scanner equivalent of the parsePhrases regex over straight double
quotes; the second argument holds the reversed characters seen since the
current opening quote, or none when outside quotes.  An opening quote
immediately followed by a closing quote matches nothing, and the closing
quote is treated as a fresh opening quote, as the regex engine does. -/
def ppAux : List Char → Option (List Char) → List (List String)
  | [], _ => []
  | c :: rest, none =>
    if c = '"' then ppAux rest (some []) else ppAux rest none
  | c :: rest, some acc =>
    if c = '"' then
      if acc.isEmpty then ppAux rest (some [])
      else phraseWords acc.reverse :: ppAux rest none
    else ppAux rest (some (c :: acc))

/-- parsePhrases() of src/tokenize.ts. -/
def parsePhrases (q : String) : List (List String) := ppAux q.data none

/-! ## KNS signature (src/quality/signature.ts) -/

/-- knsSignature(): three accumulators over the UTF-16 code units (equal
to the code points for the ASCII inputs used here), reduced modulo the
primes 257, 263 and 269 at every step exactly as the source does. -/
def knsSignature (s : String) : ℕ × ℕ × ℕ :=
  s.data.enum.foldl
    (fun acc p =>
      let i := p.1
      let code := p.2.toNat
      ((acc.1 + code) % 257,
       (acc.2.1 + code * (i + 1)) % 263,
       (acc.2.2 + Nat.xor (2 * code) (i + 7)) % 269))
    (0, 0, 0)

/-- Circular distance between two residues modulo p, normalized to a
rational in the unit interval. -/
def circDist (a b p : ℕ) : ℚ :=
  let d := ((a : ℤ) - b).natAbs
  ((min d (p - d) : ℕ) : ℚ) / (p : ℚ)

/-- knsDistance(): mean circular distance over the three primes. -/
def knsDistance (a b : ℕ × ℕ × ℕ) : ℚ :=
  (circDist a.1 b.1 257 + circDist a.2.1 b.2.1 263 + circDist a.2.2 b.2.2 269) / 3

/-- C7 counterexample: the claim computes the third signature component of
the string abc as ((194 XOR 8) + (196 XOR 9) + (198 XOR 10)) mod 269 = 73,
but knsSignature uses the offsets i + 7 with i counting from 0, so the
code produces a different value. -/
theorem C7_claimed_s3_is_wrong :
    (knsSignature "abc").2.2 ≠ (Nat.xor 194 8 + Nat.xor 196 9 + Nat.xor 198 10) % 269 := by
  decide

/-- C7 amended: the KNS signature of abc is (37, 64, 70): the first two
components are as the claim states (294 mod 257 and 590 mod 263), and the
third is ((194 XOR 7) + (196 XOR 8) + (198 XOR 9)) mod 269 = 70, the XOR
offsets being i + 7 for the 0-based character index i. -/
theorem C7_kns_signature_abc :
    knsSignature "abc" = (37, 64, 70) ∧
    (Nat.xor 194 7 + Nat.xor 196 8 + Nat.xor 198 9) % 269 = 70 ∧
    294 % 257 = 37 ∧ 590 % 263 = 64 := by
  decide

/-! ## Shingle similarity (packages/core/src/quality/similarity.ts) -/

/-- All n-character shingles of a character list, in reading order. -/
def shingles (chars : List Char) (n : ℕ) : List String :=
  (List.range (chars.length + 1 - n)).map (fun i => String.mk ((chars.drop i).take n))

/-- ngramSet(): the set of n-character shingles of the normalized string;
a short non-empty normalized string contributes itself. -/
def ngramSet (s : String) (n : ℕ) : Finset String :=
  let t := normStr s
  if t.length < n then (if t = "" then ∅ else {t})
  else (shingles t.data n).toFinset

/-- jaccardFromSets(): 1 when both sets are empty, otherwise the ratio of
intersection to union cardinality (0 for a zero union). -/
def jaccardFromSets (a b : Finset String) : ℚ :=
  if a.card = 0 ∧ b.card = 0 then 1
  else
    let inter := (a ∩ b).card
    let uni := a.card + b.card - inter
    if uni = 0 then 0 else (inter : ℚ) / (uni : ℚ)

/-- jaccard5(): 5-shingle Jaccard similarity of two strings. -/
def jaccard5 (s1 s2 : String) : ℚ := jaccardFromSets (ngramSet s1 5) (ngramSet s2 5)

theorem jaccardFromSets_comm (a b : Finset String) :
    jaccardFromSets a b = jaccardFromSets b a := by
  by_cases h : a.card = 0 ∧ b.card = 0
  · simp only [jaccardFromSets, if_pos h, if_pos (And.intro h.2 h.1)]
  · have h' : ¬(b.card = 0 ∧ a.card = 0) := fun hc => h ⟨hc.2, hc.1⟩
    simp only [jaccardFromSets, if_neg h, if_neg h', Finset.inter_comm b a,
      Nat.add_comm b.card a.card]

theorem jaccard5_comm (s1 s2 : String) : jaccard5 s1 s2 = jaccard5 s2 s1 :=
  jaccardFromSets_comm _ _

/-! ## Hits and the MMR diversifier (packages/core/src/quality/diversify.ts) -/

/-- Hit shape produced by the query pipeline and handled by the
diversifier; nspace models the namespace field. -/
structure HitL where
  blockId : ℕ
  score : ℚ
  text : String
  source : Option String
  nspace : Option String
deriving DecidableEq

/-- Default similarity of the diversifier: jaccard5 over hit texts. -/
def hitSim (a b : HitL) : ℚ := jaccard5 a.text b.text

/-- Maximum similarity of a hit against the kept list, starting at 0.
The source tracks the same maximum (its early break at the threshold
never changes the skip decision or the value used afterwards). -/
def maxSimTo (sim : HitL → HitL → ℚ) (kept : List HitL) (h : HitL) : ℚ :=
  kept.foldl (fun m s => max m (sim h s)) 0

/-- Index selection of one MMR round: the first index maximizing the MMR
score among candidates below the similarity threshold; none when every
candidate is a near-duplicate (the source then splices index 0). -/
def pickIdx (sim : HitL → HitL → ℚ) (θ lam : ℚ) (kept pool : List HitL) : Option ℕ :=
  (pool.enum.foldl
    (fun acc p =>
      let ms := maxSimTo sim kept p.2
      if ms ≥ θ then acc
      else
        let mmr := lam * p.2.score - (1 - lam) * ms
        match acc with
        | none => some (p.1, mmr)
        | some q => if mmr > q.2 then some (p.1, mmr) else acc)
    none).map (fun q => q.1)

/-- Main loop of diversifyAndDedupe(); the fuel starts at the pool length
and one element is spliced out of the pool per iteration, so the fuel
never runs out before the pool does. -/
def diversifyGo (sim : HitL → HitL → ℚ) (θ lam : ℚ) (k : ℕ) :
    ℕ → List HitL → List HitL → List HitL
  | 0, _, kept => kept
  | fuel + 1, pool, kept =>
    if pool.isEmpty || decide (k ≤ kept.length) then kept
    else
      match pool.get? ((pickIdx sim θ lam kept pool).getD 0) with
      | none => kept
      | some pick =>
        if kept.any (fun x => sim x pick ≥ θ) then
          diversifyGo sim θ lam k fuel
            (pool.eraseIdx ((pickIdx sim θ lam kept pool).getD 0)) kept
        else
          diversifyGo sim θ lam k fuel
            (pool.eraseIdx ((pickIdx sim θ lam kept pool).getD 0)) (kept ++ [pick])

/-- Stable insertion into a list sorted descending by key: an element
moves past all entries with a key at least its own, matching the stable
JavaScript sort with the comparator b minus a. -/
def insertByDesc (key : α → ℚ) (x : α) : List α → List α
  | [] => [x]
  | y :: r => if key y ≥ key x then y :: insertByDesc key x r else x :: y :: r

/-- Stable descending sort by a rational key. -/
def sortByDesc (key : α → ℚ) (l : List α) : List α :=
  l.foldl (fun acc x => insertByDesc key x acc) []

/-- diversifyAndDedupe() with the default options used by query():
jaccard5 similarity, threshold 0.92, lambda 0.8. -/
def diversifyAndDedupe (hits : List HitL) (k : ℕ) : List HitL :=
  let pool := sortByDesc HitL.score hits
  diversifyGo hitSim (92/100) (8/10) k pool.length pool []

theorem diversifyGo_pairwise (sim : HitL → HitL → ℚ) (θ lam : ℚ) (k : ℕ) :
    ∀ fuel pool kept, kept.Pairwise (fun a b => sim a b < θ) →
      (diversifyGo sim θ lam k fuel pool kept).Pairwise (fun a b => sim a b < θ) := by
  intro fuel
  induction fuel with
  | zero => intro pool kept h; exact h
  | succ n ih =>
    intro pool kept h
    rw [diversifyGo]
    split
    · exact h
    · split
      · exact h
      · split
        · exact ih _ _ h
        · refine ih _ _ ?_
          rw [List.pairwise_append]
          refine ⟨h, List.pairwise_singleton _ _, ?_⟩
          intro a ha b hb
          simp only [List.mem_singleton] at hb
          subst hb
          rename_i hnotsim
          simp only [Bool.not_eq_true, List.any_eq_false, decide_eq_true_eq] at hnotsim
          exact lt_of_not_ge (hnotsim a ha)

theorem diversifyGo_subset (sim : HitL → HitL → ℚ) (θ lam : ℚ) (k : ℕ) :
    ∀ fuel pool kept (h : HitL),
      h ∈ diversifyGo sim θ lam k fuel pool kept → h ∈ pool ∨ h ∈ kept := by
  intro fuel
  induction fuel with
  | zero => intro pool kept h hm; exact Or.inr hm
  | succ n ih =>
    intro pool kept h hm
    rw [diversifyGo] at hm
    split at hm
    · exact Or.inr hm
    · split at hm
      · exact Or.inr hm
      · rename_i pick hget
        split at hm
        · rcases ih _ _ _ hm with h1 | h2
          · exact Or.inl (List.mem_of_mem_eraseIdx h1)
          · exact Or.inr h2
        · rcases ih _ _ _ hm with h1 | h2
          · exact Or.inl (List.mem_of_mem_eraseIdx h1)
          · rcases List.mem_append.mp h2 with h3 | h3
            · exact Or.inr h3
            · simp only [List.mem_singleton] at h3
              subst h3
              exact Or.inl (List.get?_mem hget)

theorem diversifyGo_sub_mem (sim : HitL → HitL → ℚ) (θ lam : ℚ) (k : ℕ)
    (fuel : ℕ) (pool : List HitL) (h : HitL)
    (hm : h ∈ diversifyGo sim θ lam k fuel pool []) : h ∈ pool := by
  rcases diversifyGo_subset sim θ lam k fuel pool [] h hm with h1 | h2
  · exact h1
  · cases h2

/-- C5: any two distinct hits in the diversifier output have jaccard5
similarity strictly below the 0.92 threshold. -/
theorem C5_diversifier_pairwise_dissimilar (hits : List HitL) (k : ℕ) (a b : HitL)
    (ha : a ∈ diversifyAndDedupe hits k) (hb : b ∈ diversifyAndDedupe hits k)
    (hne : a ≠ b) : jaccard5 a.text b.text < 92/100 := by
  have hp : (diversifyAndDedupe hits k).Pairwise (fun x y => hitSim x y < 92/100) :=
    diversifyGo_pairwise _ _ _ _ _ _ _ (List.Pairwise.nil)
  have hsymm : Symmetric (fun x y : HitL => hitSim x y < 92/100) := by
    intro x y hxy
    simpa [hitSim, jaccard5_comm y.text x.text] using hxy
  exact hp.forall hsymm ha hb hne

/-- Concrete two-hit pool for the C5 witness. -/
def c5pool : List HitL :=
  [⟨0, 2, "alpha beta gamma", none, none⟩, ⟨1, 1, "delta epsilon zeta", none, none⟩]

set_option maxHeartbeats 2000000 in
/-- C5 witness: a concrete two-element pool with dissimilar texts where
both hits survive diversification and the theorem applies. -/
theorem C5_witness :
    (⟨0, 2, "alpha beta gamma", none, none⟩ : HitL) ∈ diversifyAndDedupe c5pool 2 ∧
    (⟨1, 1, "delta epsilon zeta", none, none⟩ : HitL) ∈ diversifyAndDedupe c5pool 2 ∧
    (⟨0, 2, "alpha beta gamma", none, none⟩ : HitL) ≠ ⟨1, 1, "delta epsilon zeta", none, none⟩ ∧
    jaccard5 "alpha beta gamma" "delta epsilon zeta" < 92/100 := by
  refine ⟨?_, ?_, ?_, ?_⟩
  · decide
  · decide
  · decide
  · exact C5_diversifier_pairwise_dissimilar c5pool 2
      ⟨0, 2, "alpha beta gamma", none, none⟩ ⟨1, 1, "delta epsilon zeta", none, none⟩
      (by decide) (by decide) (by decide)

/-! ## Association lists modelling insertion-ordered JavaScript Maps -/

/-- Lookup in a nat-keyed association list (keys are unique whenever the
list was built with alSet, so first match equals the Map lookup). -/
def alGet (l : List (ℕ × α)) (k : ℕ) : Option α :=
  match l with
  | [] => none
  | (k', v) :: r => if k' = k then some v else alGet r k

/-- Map.set: an existing key keeps its position and gets the new value, a
new key is appended at the end, preserving insertion order. -/
def alSet (l : List (ℕ × α)) (k : ℕ) (v : α) : List (ℕ × α) :=
  match l with
  | [] => [(k, v)]
  | (k', v') :: r => if k' = k then (k', v) :: r else (k', v') :: alSet r k v

/-- First-match lookup in a string-keyed association list. -/
def slGet (l : List (String × ℕ)) (k : String) : Option ℕ :=
  match l with
  | [] => none
  | (k', v) :: r => if k' = k then some v else slGet r k

/-- Lookup mirroring the construction new Map(entries), where a later
entry with the same key overwrites an earlier one. -/
def lexGet (l : List (String × ℕ)) (k : String) : Option ℕ :=
  l.foldl (fun acc p => if p.1 = k then some p.2 else acc) none

/-! ## Inverted index builder (src/indexer.ts) -/

/-- Block input of buildIndex(). -/
structure Blk where
  id : ℕ
  text : String
  heading : Option String

/-- Per-block pass of buildIndex(): assign term ids on first occurrence
(starting at 1) extending the running term table, and collect the map
from term id to the positions of the term inside this block, both in
insertion order. -/
def blockTermPositions (term2id : List (String × ℕ)) (toks : List Token) :
    List (String × ℕ) × List (ℕ × List ℕ) :=
  toks.foldl
    (fun acc tk =>
      let t2i := acc.1
      let per := acc.2
      let tid := (slGet t2i tk.term).getD (t2i.length + 1)
      let t2i' := if (slGet t2i tk.term).isSome then t2i else t2i ++ [(tk.term, tid)]
      (t2i', alSet per tid ((alGet per tid).getD [] ++ [tk.pos])))
    (term2id, [])

/-- Merge one block into the global term-to-block-to-positions map. -/
def mergeBlock (global : List (ℕ × List (ℕ × List ℕ))) (bid : ℕ)
    (per : List (ℕ × List ℕ)) : List (ℕ × List (ℕ × List ℕ)) :=
  per.foldl
    (fun g p => alSet g p.1 (alSet ((alGet g p.1).getD []) bid p.2))
    global

/-- Accumulated state of buildIndex() over all blocks: the lexicon under
construction and the global positions map. -/
def buildIndexState (blocks : List Blk) :
    List (String × ℕ) × List (ℕ × List (ℕ × List ℕ)) :=
  blocks.foldl
    (fun acc b =>
      let res := blockTermPositions acc.1 (tokenize b.text)
      (res.1, mergeBlock acc.2 b.id res.2))
    ([], [])

/-- One block entry of the flat posting stream: the block id biased by
one, then the positions exactly as collected, then the 0 terminator. -/
def flattenGroup (bid : ℕ) (ps : List ℕ) : List ℕ := (bid + 1) :: ps ++ [0]

/-- One term entry of the flat posting stream. -/
def flattenTerm (tid : ℕ) (bm : List (ℕ × List ℕ)) : List ℕ :=
  tid :: (bm.map (fun p => flattenGroup p.1 p.2)).flatten ++ [0]

/-- Flatten the global map into the posting stream. -/
def buildPostings (g : List (ℕ × List (ℕ × List ℕ))) : List ℕ :=
  (g.map (fun e => flattenTerm e.1 e.2)).flatten

/-- Result shape of buildIndex(). -/
structure IndexResult where
  lexicon : List (String × ℕ)
  postings : List ℕ

/-- buildIndex() of src/indexer.ts. -/
def buildIndex (blocks : List Blk) : IndexResult :=
  let st := buildIndexState blocks
  ⟨st.1, buildPostings st.2⟩

/-- C1: the builder stores the raw 0-based token positions in the posting
stream, so the first token of every non-empty block stores the position
value 0 inside its block entry, where the stream grammar and the decoder
of query.ts reserve 0 for the block and term terminators.  On the single
document alpha beta the stream is 1,1,0,0,0,2,1,1,0,0: the value at the
third slot is the position of alpha, which is 0, and the positions list
recorded for term 1 in block 0 is the list holding 0.  The decoder
consequently reads an empty positions list and a term frequency of 0 for
alpha. -/
theorem C1_first_token_position_is_zero :
    (buildIndex [⟨0, "alpha beta", none⟩]).postings = [1, 1, 0, 0, 0, 2, 1, 1, 0, 0] ∧
    alGet ((alGet (buildIndexState [⟨0, "alpha beta", none⟩]).2 1).getD []) 0 = some [0] ∧
    ¬ (0 : ℕ) < 0 := by
  decide

/-! ## Mounted pack model (src/pack.ts result shape) -/

/-- Stats object of the pack metadata. -/
structure PackStats where
  docs : ℕ
  blocks : ℕ
  terms : ℕ
  avgBlockLen : Option ℚ
deriving DecidableEq

/-- Pack metadata. -/
structure PackMeta where
  version : ℕ
  stats : PackStats
deriving DecidableEq

/-- Mounted pack: the fields of the Pack type of src/pack.ts used by the
query engine; nspaces models the namespaces array. -/
structure Pack where
  meta : PackMeta
  lexicon : List (String × ℕ)
  postings : List ℕ
  blocks : List String
  headings : Option (List (Option String))
  docIds : Option (List (Option String))
  nspaces : Option (List (Option String))
  blockTokenLens : Option (List ℕ)
deriving DecidableEq

/-! ## Posting-stream scanner (scanForTermIds of src/query.ts)

The decoder walks the flat stream with nested loops whose inner reads are
not bounds-checked; in JavaScript a read past the end of the typed array
yields undefined and the position loop then never terminates.  The model
returns none exactly when such an out-of-bounds read happens. -/

/-- Candidate entry per block: term frequencies (weighted), collected
positions, the phrase flag and the heading overlap score. -/
structure CandEntry where
  tf : List (ℕ × ℚ)
  pos : List (ℕ × List ℕ)
  hasPhrase : Bool
  headingScore : ℚ
deriving DecidableEq

/-- Fresh candidate entry, as created during the scan. -/
def emptyEntry : CandEntry := ⟨[], [], false, 0⟩

/-- Scanner state: the candidate map and the query-time document
frequencies, both in insertion order. -/
structure ScanState where
  cands : List (ℕ × CandEntry)
  dfs : List (ℕ × ℕ)
deriving DecidableEq

/-- Scanner configuration: the version-gated block-id offset and the two
flags of scanForTermIds. -/
structure ScanCfg where
  usesOffset : Bool
  collectPos : Bool
  createCands : Bool

/-- Update of one candidate entry for one decoded block entry. -/
def updEntry (cfg : ScanCfg) (tid : ℕ) (w : ℚ) (ps : List ℕ) (e : CandEntry) : CandEntry :=
  { e with
    tf := alSet e.tf tid (((alGet e.tf tid).getD 0) + (ps.length : ℚ) * w),
    pos := if cfg.collectPos then alSet e.pos tid ps else e.pos }

/-- Candidate-map update for one decoded block entry: an existing entry
is updated; a missing one is created only when createCands holds. -/
def scanEntryUpdate (cfg : ScanCfg) (tid : ℕ) (w : ℚ) (ps : List ℕ) (bid : ℕ)
    (cands : List (ℕ × CandEntry)) : List (ℕ × CandEntry) :=
  match alGet cands bid with
  | some e => alSet cands bid (updEntry cfg tid w ps e)
  | none =>
    if cfg.createCands then alSet cands bid (updEntry cfg tid w ps emptyEntry)
    else cands

/-- Control position of the decoder of scanForTermIds: before a term
entry, inside the block-entry loop of a term, or inside the position loop
of a block entry (with the positions read so far, reversed). -/
inductive ScanMode
  | top
  | blocks (tid : ℕ) (termDf : ℕ)
  | pos (tid : ℕ) (termDf : ℕ) (b : ℕ) (acc : List ℕ)
deriving DecidableEq

/-- One-value-at-a-time decoder of the posting stream, equivalent to the
nested while loops of scanForTermIds.  The stream ending while the
decoder is inside the block loop or the position loop corresponds to the
JavaScript code reading undefined past the typed array and looping
forever, and yields none.  The term weight is looked up from the weights
map; a term is relevant when its weight is positive; document
frequencies are recorded for relevant terms when their entry ends. -/
def scanGo (cfg : ScanCfg) (weights : List (ℕ × ℚ)) :
    List ℕ → ScanMode → ScanState → Option ScanState
  | [], .top, st => some st
  | [], .blocks _ _, _ => none
  | [], .pos _ _ _ _, _ => none
  | x :: r, .top, st =>
    if x = 0 then scanGo cfg weights r .top st
    else scanGo cfg weights r (.blocks x 0) st
  | x :: r, .blocks tid df, st =>
    if x = 0 then
      scanGo cfg weights r .top
        ⟨st.cands,
         if 0 < (alGet weights tid).getD 0 then alSet st.dfs tid df else st.dfs⟩
    else scanGo cfg weights r (.pos tid df x []) st
  | x :: r, .pos tid df b acc, st =>
    if x = 0 then
      let w := (alGet weights tid).getD 0
      let bid := if cfg.usesOffset then b - 1 else b
      let cands' :=
        if 0 < w then scanEntryUpdate cfg tid w acc.reverse bid st.cands else st.cands
      scanGo cfg weights r (.blocks tid (df + 1)) ⟨cands', st.dfs⟩
    else scanGo cfg weights r (.pos tid df b (x :: acc)) st

/-- scanForTermIds() over a whole posting stream. -/
def scanStream (cfg : ScanCfg) (weights : List (ℕ × ℚ)) (p : List ℕ) (st : ScanState) :
    Option ScanState :=
  scanGo cfg weights p .top st

/-! ## Proximity (packages/core/src/quality/proximity.ts) -/

/-- Minimum of a non-empty list of naturals (0 for an empty list, which
the caller never passes). -/
def listMin : List ℕ → ℕ
  | [] => 0
  | x :: r => r.foldl min x

/-- Maximum of a non-empty list of naturals. -/
def listMax : List ℕ → ℕ
  | [] => 0
  | x :: r => r.foldl max x

/-- Ascending insertion used to model the numeric JavaScript sort. -/
def insertAscNat (x : ℕ) : List ℕ → List ℕ
  | [] => [x]
  | y :: r => if y ≤ x then y :: insertAscNat x r else x :: y :: r

/-- Ascending sort of naturals. -/
def sortAscNat (l : List ℕ) : List ℕ := l.foldl (fun acc x => insertAscNat x acc) []

/-- Advance the first list whose head equals the current minimum. -/
def advanceMin (m : ℕ) : List (List ℕ) → List (List ℕ)
  | [] => []
  | l :: rest => if l.headD 0 = m then l.drop 1 :: rest else l :: advanceMin m rest

/-- Main loop of minCoverSpan(): emit the span of the current heads and
advance the list owning the minimum; stop when a list is exhausted.  Each
round removes one element, so a fuel of the total length plus one never
runs out before the loop stops. -/
def mcsGo : ℕ → List (List ℕ) → Option ℕ → Option ℕ
  | 0, _, best => best
  | fuel + 1, lists, best =>
    if lists.any (fun l => l.isEmpty) then best
    else
      let cur := lists.map (fun l => l.headD 0)
      let mn := listMin cur
      let span := listMax cur - mn
      let best' := match best with
        | none => some span
        | some bst => if span < bst then some span else some bst
      mcsGo fuel (advanceMin mn lists) best'

/-- minCoverSpan(): none when the positions map is empty, otherwise the
smallest width of a window holding one position from every list. -/
def minCoverSpan (posMap : List (ℕ × List ℕ)) : Option ℕ :=
  let lists := posMap.map (fun p => sortAscNat p.2)
  if lists.isEmpty then none
  else mcsGo ((lists.map List.length).sum + 1) lists none

/-- proximityMultiplier() with the default strength 0.15. -/
def proximityMultiplier (span : Option ℕ) : ℚ :=
  match span with
  | none => 1
  | some s => 1 + (0.15 : ℚ) / (1 + (s : ℚ))

/-! ## BM25L ranker over rationals (packages/core/src/rank.ts, as called
by query() with the proximity bonus and the default constants k1 = 1.5,
b = 0.75, headingBoost = 0.3, phraseBoost = 0.6) -/

/-- Candidate length: the persisted token length when available, else the
sum of the term frequencies with 0 replaced by 1. -/
def candLen (blockTokenLens : Option (List ℕ)) (bid : ℕ) (tf : List (ℕ × ℚ)) : ℚ :=
  match blockTokenLens.bind (fun l => l.get? bid) with
  | some n => (n : ℚ)
  | none =>
    let s := (tf.map (fun p => p.2)).sum
    if s = 0 then 1 else s

/-- Sum of the BM25L contributions over the term-frequency map, with the
idf computed through the supplied log function. -/
def bm25Score (log : ℚ → ℚ) (docCount : ℚ) (dfs : List (ℕ × ℕ)) (avgLen len : ℚ)
    (tf : List (ℕ × ℚ)) : ℚ :=
  tf.foldl
    (fun acc p =>
      let df : ℚ := (((alGet dfs p.1).getD 0 : ℕ) : ℚ)
      let idf := log (1 + (docCount - df + 1/2) / (df + 1/2))
      acc + idf * ((p.2 * (3/2 + 1)) / (p.2 + (3/2) * (1 - 3/4 + (3/4) * (len / avgLen)))))
    0

/-- rankBM25L() as invoked by query(): score each candidate, apply the
proximity multiplier and the phrase and heading boosts, then sort by
score descending (stable). -/
def rankBM25L (log : ℚ → ℚ) (cands : List (ℕ × CandEntry)) (avgLen docCount : ℚ)
    (dfs : List (ℕ × ℕ)) (blockTokenLens : Option (List ℕ)) : List (ℕ × ℚ) :=
  sortByDesc (fun p => p.2)
    (cands.map (fun c =>
      let len := candLen blockTokenLens c.1 c.2.tf
      let score0 := bm25Score log docCount dfs avgLen len c.2.tf
      let score1 := score0 * proximityMultiplier (minCoverSpan c.2.pos)
      let score2 := if c.2.hasPhrase then score1 * (1 + 3/5) else score1
      let score3 :=
        if c.2.headingScore ≠ 0 then score2 * (1 + (3/10) * c.2.headingScore) else score2
      (c.1, score3)))

/-! ## Query pipeline (query() of src/query.ts) -/

/-- Normalized filter set of the namespace and source options: values are
normalized and empty results dropped; an empty set disables filtering. -/
def normFilter (input : Option (List String)) : List String :=
  ((input.getD []).map normStr).filter (fun s => s ≠ "")

/-- Label of a block inside an optional array of optional strings. -/
def lblOfBlock (lbls : Option (List (Option String))) (bid : ℕ) : Option String :=
  (lbls.bind (fun l => l.get? bid)).bind id

/-- Namespace and source filtering: with a non-empty filter set, keep a
candidate exactly when its stored label is a string whose normalization
is non-empty and belongs to the set. -/
def applyLblFilter (lbls : Option (List (Option String))) (filter : List String)
    (cands : List (ℕ × CandEntry)) : List (ℕ × CandEntry) :=
  if filter.isEmpty then cands
  else
    cands.filter (fun c =>
      match lblOfBlock lbls c.1 with
      | some s => decide (normStr s ≠ "" ∧ normStr s ∈ filter)
      | none => false)

/-- Block text as read by the query paths, empty when out of range. -/
def blockText (pack : Pack) (bid : ℕ) : String := (pack.blocks.get? bid).getD ""

/-- Test whether the token list starts with the phrase sequence. -/
def startsWithSeq : List String → List String → Bool
  | _, [] => true
  | [], _ :: _ => false
  | t :: ts, s :: ss => t = s && startsWithSeq ts ss

/-- Sliding-window contiguous containment of a sequence; the empty
sequence is trivially contained, matching the source loop bounds. -/
def hasContiguous : List String → List String → Bool
  | _, [] => true
  | [], _ :: _ => false
  | t :: ts, s :: ss => startsWithSeq (t :: ts) (s :: ss) || hasContiguous ts (s :: ss)

/-- containsPhrase() of src/query.ts: false for an empty input sequence,
otherwise an ordered contiguous match of the re-tokenized sequence in the
tokenized text. -/
def containsPhrase (text : String) (seq : List String) : Bool :=
  if seq.isEmpty then false
  else
    hasContiguous ((tokenize text).map Token.term)
      ((tokenize (String.intercalate " " seq)).map Token.term)

/-- Quoted phrases of the query normalized as in query(): each raw word
is normalized, split on whitespace, and empty fragments dropped (the
result may be the empty sequence, which is kept). -/
def quotedPhrases (q : String) : List (List String) :=
  (parsePhrases q).map (fun seq =>
    ((seq.map (fun w => splitWsStr (normStr w))).flatten).filter (fun s => s ≠ ""))

/-- requirePhrases tokenized through the standard path, empty results
dropped. -/
def extraPhrases (requirePhrases : List String) : List (List String) :=
  (requirePhrases.map (fun s => (tokenize s).map Token.term)).filter (fun l => !l.isEmpty)

/-- Phrase enforcement step: with required phrases, drop candidates whose
block text lacks any of them and flag the survivors; otherwise only flag
candidates containing some quoted phrase. -/
def applyPhrases (pack : Pack) (reqd quoted : List (List String))
    (cands : List (ℕ × CandEntry)) : List (ℕ × CandEntry) :=
  if !reqd.isEmpty then
    (cands.filter (fun c => reqd.all (fun seq => containsPhrase (blockText pack c.1) seq))).map
      (fun c => (c.1, { c.2 with hasPhrase := true }))
  else if !quoted.isEmpty then
    cands.map (fun c =>
      (c.1, { c.2 with hasPhrase := quoted.any (fun seq => containsPhrase (blockText pack c.1) seq) }))
  else cands

/-- Heading overlap step: when the pack has a non-empty headings array,
set each candidate heading score to the share of distinct query terms
found in its heading. -/
def applyHeading (pack : Pack) (normTokens : List String) (cands : List (ℕ × CandEntry)) :
    List (ℕ × CandEntry) :=
  match pack.headings with
  | some hl =>
    if hl.isEmpty then cands
    else
      let qCount : ℚ := if normTokens.dedup.length = 0 then 1 else (normTokens.dedup.length : ℚ)
      cands.map (fun c =>
        let h := ((hl.get? c.1).bind id).getD ""
        let overlap := (((tokenize h).map Token.term).filter (fun t => t ∈ normTokens)).dedup.length
        (c.1, { c.2 with headingScore := (overlap : ℚ) / qCount }))
  | none => cands

/-- Resolved query-expansion options with the defaults and floors of
query(); negative JavaScript inputs are outside this model (the options
are naturals and a non-negative rational). -/
structure QueryExpansionOpts where
  enabled : Option Bool := none
  docs : Option ℕ := none
  terms : Option ℕ := none
  weight : Option ℚ := none
  minTermLength : Option ℕ := none
deriving DecidableEq

/-- Query options of src/query.ts; nspace models the namespace option,
already in array form (the source wraps a single string). -/
structure QueryOpts where
  topK : Option ℕ := none
  requirePhrases : List String := []
  nspace : Option (List String) := none
  source : Option (List String) := none
  queryExpansion : Option QueryExpansionOpts := none
deriving DecidableEq

def qeEnabled (o : QueryOpts) : Bool := (o.queryExpansion.bind (fun e => e.enabled)).getD true

def qeDocs (o : QueryOpts) : ℕ := max 1 ((o.queryExpansion.bind (fun e => e.docs)).getD 3)

def qeTerms (o : QueryOpts) : ℕ := max 1 ((o.queryExpansion.bind (fun e => e.terms)).getD 4)

def qeWeight (o : QueryOpts) : ℚ :=
  max 0 ((o.queryExpansion.bind (fun e => e.weight)).getD (0.35 : ℚ))

def qeMinTermLength (o : QueryOpts) : ℕ :=
  max 2 ((o.queryExpansion.bind (fun e => e.minTermLength)).getD 3)

/-- The required phrase set of a query: normalized quoted phrases plus
the normalized requirePhrases option. -/
def requiredPhrases (q : String) (opts : QueryOpts) : List (List String) :=
  quotedPhrases q ++ extraPhrases opts.requirePhrases

/-- deriveExpansionTerms() of src/query.ts. -/
def deriveExpansionTerms (pack : Pack) (prelim : List (ℕ × ℚ)) (baseTerms : List ℕ)
    (reqd : List (List String)) (docs terms : ℕ) (weight : ℚ) (minTermLength : ℕ) :
    List (ℕ × ℚ) :=
  if prelim.isEmpty || decide (weight ≤ 0) then []
  else
    let forbidden := baseTerms ++ (reqd.flatten.filterMap (fun t => lexGet pack.lexicon t))
    let cap := min docs prelim.length
    let bestScore := max (((prelim.head?).map (fun p => p.2)).getD 0) (1/1000000)
    let termScores := (prelim.take cap).foldl
      (fun ts item =>
        let docWeight := max (item.2 / bestScore) (1/5)
        let localTfs := (tokenize (blockText pack item.1)).foldl
          (fun lt tok =>
            if tok.term.length < minTermLength then lt
            else
              match lexGet pack.lexicon tok.term with
              | none => lt
              | some tid =>
                if tid ∈ forbidden then lt
                else alSet lt tid (((alGet lt tid).getD 0) + 1))
          ([] : List (ℕ × ℚ))
        localTfs.foldl
          (fun ts2 p => alSet ts2 p.1 (((alGet ts2 p.1).getD 0) + p.2 * docWeight)) ts)
      ([] : List (ℕ × ℚ))
    ((sortByDesc (fun p => p.2) termScores).take terms).map
      (fun p => (p.1, weight * max (1/2) (min (3/2) p.2)))

/-- Final stage of query(): truncate the ranking to five times topK,
apply the KNS tie-break boost, project hits and diversify. -/
def finishQuery (pack : Pack) (q : String) (topK : ℕ) (prelim : List (ℕ × ℚ)) : List HitL :=
  if prelim.isEmpty then []
  else
    let qSig := knsSignature (normStr q)
    let pool := (prelim.take (topK * 5)).map (fun r =>
      let text := blockText pack r.1
      ({ blockId := r.1,
         score := r.2 * (1 + (0.02 : ℚ) * (1 - knsDistance qSig (knsSignature text))),
         text := text,
         source := lblOfBlock pack.docIds r.1,
         nspace := lblOfBlock pack.nspaces r.1 } : HitL))
    diversifyAndDedupe pool topK

/-- Expansion stage of query(): with expansion enabled and a non-empty
first ranking, derive expansion terms, rescan the postings for them
(creating candidates) and re-rank; otherwise keep the first ranking.
The candidate map and dfs map passed in are the live maps after the
heading step, as mutated in the source. -/
def expansionStage (log : ℚ → ℚ) (pack : Pack) (q : String) (opts : QueryOpts) (topK : ℕ)
    (termSet : List ℕ) (reqd : List (List String)) (cands4 : List (ℕ × CandEntry))
    (dfs : List (ℕ × ℕ)) (avgLen docCount : ℚ) (prelim1 : List (ℕ × ℚ)) :
    Option (List HitL) :=
  if qeEnabled opts && !prelim1.isEmpty then
    let ew := deriveExpansionTerms pack prelim1 termSet reqd
      (qeDocs opts) (qeTerms opts) (qeWeight opts) (qeMinTermLength opts)
    if ew.isEmpty then some (finishQuery pack q topK prelim1)
    else
      match scanStream ⟨decide (3 ≤ pack.meta.version), false, true⟩ ew pack.postings
          ⟨cands4, dfs⟩ with
      | none => none
      | some st3 =>
        some (finishQuery pack q topK
          (rankBM25L log st3.cands avgLen docCount st3.dfs pack.blockTokenLens))
  else some (finishQuery pack q topK prelim1)

/-- query() of src/query.ts: parse, scan, rescue, filter, enforce
phrases, heading overlap, rank, optionally expand and re-rank, tie-break
and diversify.  The log argument stands for Math.log inside the idf; the
result is none exactly when a posting scan reads past the stream end. -/
def queryModel (log : ℚ → ℚ) (pack : Pack) (q : String) (opts : QueryOpts) :
    Option (List HitL) :=
  let topK := opts.topK.getD 10
  let normTokens := (tokenize q).map Token.term
  let quoted := quotedPhrases q
  let reqd := requiredPhrases q opts
  let nsFilter := normFilter opts.nspace
  let srcFilter := normFilter opts.source
  let termSet := (normTokens.filterMap (fun t => lexGet pack.lexicon t)).dedup
  let cfgMain : ScanCfg := ⟨decide (3 ≤ pack.meta.version), true, true⟩
  let st1res :=
    if termSet.isEmpty then some (⟨[], []⟩ : ScanState)
    else scanStream cfgMain (termSet.map (fun t => (t, (1 : ℚ)))) pack.postings ⟨[], []⟩
  match st1res with
  | none => none
  | some st1 =>
    let st2res :=
      if st1.cands.isEmpty && !reqd.isEmpty then
        let phraseIds := (reqd.flatten.filterMap (fun t => lexGet pack.lexicon t)).dedup
        if phraseIds.isEmpty then some st1
        else scanStream cfgMain (phraseIds.map (fun t => (t, (1 : ℚ)))) pack.postings st1
      else some st1
    match st2res with
    | none => none
    | some st2 =>
      let cands2 := applyLblFilter pack.docIds srcFilter
        (applyLblFilter pack.nspaces nsFilter st2.cands)
      let cands3 := applyPhrases pack reqd quoted cands2
      if cands3.isEmpty then some []
      else
        let cands4 := applyHeading pack normTokens cands3
        let avgLen :=
          match pack.meta.stats.avgBlockLen with
          | some a => a
          | none =>
            if pack.blocks.isEmpty then 1
            else ((pack.blocks.map (fun b => (tokenize b).length)).sum : ℚ) / (pack.blocks.length : ℚ)
        let docCount : ℚ := (pack.meta.stats.blocks : ℚ)
        expansionStage log pack q opts topK termSet reqd cands4 st2.dfs avgLen docCount
          (rankBM25L log cands4 avgLen docCount st2.dfs pack.blockTokenLens)

/-! ## Membership lemmas for the query pipeline -/

theorem mem_insertByDesc {key : α → ℚ} {x y : α} {l : List α} :
    y ∈ insertByDesc key x l ↔ y = x ∨ y ∈ l := by
  induction l with
  | nil => simp [insertByDesc]
  | cons z r ih =>
    rw [insertByDesc]
    split
    · simp only [List.mem_cons, ih] <;> tauto
    · simp only [List.mem_cons] <;> tauto

theorem mem_sortByDesc {key : α → ℚ} {l : List α} {y : α} :
    y ∈ sortByDesc key l ↔ y ∈ l := by
  suffices hs : ∀ acc : List α,
      (y ∈ l.foldl (fun a x => insertByDesc key x a) acc ↔ y ∈ l ∨ y ∈ acc) by
    simpa [sortByDesc] using hs []
  induction l with
  | nil => intro acc; simp
  | cons x r ih =>
    intro acc
    simp only [List.foldl_cons, ih, mem_insertByDesc, List.mem_cons] <;> tauto

theorem rankBM25L_mem {log : ℚ → ℚ} {cands : List (ℕ × CandEntry)} {avgLen docCount : ℚ}
    {dfs : List (ℕ × ℕ)} {btl : Option (List ℕ)} {p : ℕ × ℚ}
    (h : p ∈ rankBM25L log cands avgLen docCount dfs btl) :
    ∃ e, (p.1, e) ∈ cands := by
  rw [rankBM25L, mem_sortByDesc] at h
  rcases List.mem_map.mp h with ⟨c, hc, rfl⟩
  exact ⟨c.2, by simpa using hc⟩

theorem applyLblFilter_subset {lbls : Option (List (Option String))} {filter : List String}
    {cands : List (ℕ × CandEntry)} {c : ℕ × CandEntry}
    (hc : c ∈ applyLblFilter lbls filter cands) : c ∈ cands := by
  rw [applyLblFilter] at hc
  split at hc
  · exact hc
  · exact List.mem_of_mem_filter hc

theorem applyLblFilter_sound {lbls : Option (List (Option String))} {filter : List String}
    {cands : List (ℕ × CandEntry)} {c : ℕ × CandEntry}
    (hne : filter ≠ []) (hc : c ∈ applyLblFilter lbls filter cands) :
    ∃ s, lblOfBlock lbls c.1 = some s ∧ normStr s ≠ "" ∧ normStr s ∈ filter := by
  rw [applyLblFilter] at hc
  split at hc
  · rename_i hemp
    exact absurd (by simpa using hemp) hne
  · have hp := (List.mem_filter.mp hc).2
    cases hl : lblOfBlock lbls c.1 with
    | none => rw [hl] at hp; cases hp
    | some s =>
      rw [hl] at hp
      simp only [decide_eq_true_eq] at hp
      exact ⟨s, rfl, hp.1, hp.2⟩

theorem applyPhrases_key {pack : Pack} {reqd quoted : List (List String)}
    {cands : List (ℕ × CandEntry)} {c : ℕ × CandEntry}
    (hc : c ∈ applyPhrases pack reqd quoted cands) : ∃ e, (c.1, e) ∈ cands := by
  rw [applyPhrases] at hc
  split at hc
  · rcases List.mem_map.mp hc with ⟨c0, hc0, rfl⟩
    exact ⟨c0.2, by simpa using List.mem_of_mem_filter hc0⟩
  · split at hc
    · rcases List.mem_map.mp hc with ⟨c0, hc0, rfl⟩
      exact ⟨c0.2, by simpa using hc0⟩
    · exact ⟨c.2, by simpa using hc⟩

theorem applyPhrases_sound {pack : Pack} {reqd quoted : List (List String)}
    {cands : List (ℕ × CandEntry)} {c : ℕ × CandEntry}
    (hne : reqd ≠ []) (hc : c ∈ applyPhrases pack reqd quoted cands) :
    ∀ seq ∈ reqd, containsPhrase (blockText pack c.1) seq = true := by
  rw [applyPhrases] at hc
  split at hc
  · rcases List.mem_map.mp hc with ⟨c0, hc0, rfl⟩
    have hall := (List.mem_filter.mp hc0).2
    intro seq hseq
    exact List.all_eq_true.mp hall seq hseq
  · rename_i hney
    exfalso
    apply hne
    simpa using hney

theorem applyHeading_key {pack : Pack} {normTokens : List String}
    {cands : List (ℕ × CandEntry)} {c : ℕ × CandEntry}
    (hc : c ∈ applyHeading pack normTokens cands) : ∃ e, (c.1, e) ∈ cands := by
  cases hh : pack.headings with
  | none =>
    simp only [applyHeading, hh] at hc
    exact ⟨c.2, by simpa using hc⟩
  | some hl =>
    simp only [applyHeading, hh] at hc
    split at hc
    · exact ⟨c.2, by simpa using hc⟩
    · rcases List.mem_map.mp hc with ⟨c0, hc0, rfl⟩
      exact ⟨c0.2, by simpa using hc0⟩

theorem diversifyAndDedupe_subset {hits : List HitL} {k : ℕ} {h : HitL}
    (hm : h ∈ diversifyAndDedupe hits k) : h ∈ hits := by
  rw [diversifyAndDedupe] at hm
  exact mem_sortByDesc.mp (diversifyGo_sub_mem _ _ _ _ _ _ _ hm)

theorem finishQuery_mem {pack : Pack} {q : String} {topK : ℕ} {prelim : List (ℕ × ℚ)}
    {h : HitL} (hm : h ∈ finishQuery pack q topK prelim) :
    ∃ p ∈ prelim, h.blockId = p.1 ∧ h.text = blockText pack p.1 ∧
      h.source = lblOfBlock pack.docIds p.1 ∧ h.nspace = lblOfBlock pack.nspaces p.1 := by
  rw [finishQuery] at hm
  split at hm
  · cases hm
  · have h1 := diversifyAndDedupe_subset hm
    rcases List.mem_map.mp h1 with ⟨r, hr, rfl⟩
    exact ⟨r, List.take_subset _ _ hr, rfl, rfl, rfl, rfl⟩

theorem expansionStage_disabled {log : ℚ → ℚ} {pack : Pack} {q : String} {opts : QueryOpts}
    {topK : ℕ} {termSet : List ℕ} {reqd : List (List String)}
    {cands4 : List (ℕ × CandEntry)} {dfs : List (ℕ × ℕ)} {avgLen docCount : ℚ}
    {prelim1 : List (ℕ × ℚ)} (hexp : qeEnabled opts = false) :
    expansionStage log pack q opts topK termSet reqd cands4 dfs avgLen docCount prelim1
      = some (finishQuery pack q topK prelim1) := by
  rw [expansionStage, hexp]
  simp

/-- Master soundness fact for hits of an expansion-disabled query: every
returned hit arises from a candidate that survived the namespace filter,
the source filter and the phrase enforcement, and the hit projects the
labels and text of its block. -/
theorem queryHits_master {log : ℚ → ℚ} {pack : Pack} {q : String} {opts : QueryOpts}
    (hexp : qeEnabled opts = false) {hits : List HitL}
    (hres : queryModel log pack q opts = some hits) {h : HitL} (hmem : h ∈ hits) :
    ∃ cands0 e,
      (h.blockId, e) ∈ applyPhrases pack (requiredPhrases q opts) (quotedPhrases q)
          (applyLblFilter pack.docIds (normFilter opts.source)
            (applyLblFilter pack.nspaces (normFilter opts.nspace) cands0)) ∧
      h.text = blockText pack h.blockId ∧
      h.source = lblOfBlock pack.docIds h.blockId ∧
      h.nspace = lblOfBlock pack.nspaces h.blockId := by
  simp only [queryModel] at hres
  split at hres
  · cases hres
  · rename_i x1 st1 heq1
    split at hres
    · cases hres
    · rename_i x2 st2 heq2
      split at hres
      · cases hres
        cases hmem
      · rw [expansionStage_disabled hexp] at hres
        injection hres with hres
        subst hres
        rcases finishQuery_mem hmem with ⟨p, hp, hbid, htext, hsrc, hns⟩
        rcases rankBM25L_mem hp with ⟨e4, he4⟩
        rcases applyHeading_key he4 with ⟨e3, he3⟩
        exact ⟨st2.cands, e3, by rw [hbid]; exact he3, by rw [htext, hbid],
          by rw [hsrc, hbid], by rw [hns, hbid]⟩

/-! ## Builder to mounted pack (buildPack of src/builder.ts followed by
mountPack of src/pack.ts on the produced bytes)

The markdown stripper of the builder reduces to its final
whitespace-collapse step on texts free of markdown control characters
(backtick, asterisk, underscore, tilde, hash, brackets, parentheses),
which covers every concrete scenario below; collapseWs models that
step. -/

/-- Whitespace collapse and trim, the last step of stripMd(). -/
def collapseWs (s : String) : String := String.intercalate " " (splitWsStr s)

/-- Input document of buildPack(). -/
structure BuildDoc where
  id : Option String := none
  heading : Option String := none
  nspace : Option String := none
  text : String

/-- Composition of buildPack() and mountPack(): the pack a client holds
after building from the given documents and mounting the bytes. -/
def buildPackModel (docs : List BuildDoc) : Pack :=
  let texts := docs.map (fun d => collapseWs d.text)
  let idx := buildIndex ((docs.zip texts).enum.map (fun p => ⟨p.1, p.2.2, p.2.1.heading⟩))
  let lens := texts.map (fun t => (tokenize t).length)
  let avg : ℚ := if texts.isEmpty then 1 else ((lens.sum : ℕ) : ℚ) / ((texts.length : ℕ) : ℚ)
  { meta := ⟨3, ⟨docs.length, texts.length, idx.lexicon.length, some avg⟩⟩,
    lexicon := idx.lexicon,
    postings := idx.postings,
    blocks := texts,
    headings := some (docs.map (fun d => d.heading)),
    docIds := some (docs.map (fun d => d.id)),
    nspaces := some (docs.map (fun d => d.nspace)),
    blockTokenLens := some lens }

/-- The two documents of scenario S2. -/
def packS2 : Pack := buildPackModel
  [⟨some "first", none, none, "alpha beta gamma only appears here"⟩,
   ⟨some "second", none, none, "unrelated content"⟩]

set_option maxHeartbeats 4000000 in
/-- Reduction of the S2 query to its expansion stage: everything before
the first ranking is concrete (the scan decodes an empty position list
for alpha because its stored position is 0, so its term frequency is 0),
and the pipeline reaches the expansion stage with the single candidate
block 0. -/
theorem queryS2_step (log : ℚ → ℚ) :
    queryModel log packS2 "alpha" { topK := some 2 } =
      expansionStage log packS2 "alpha" { topK := some 2 } 2 [1] []
        [(0, ⟨[(1, 0)], [(1, [])], false, 0⟩)] [(1, 1)] 4 2
        (rankBM25L log [(0, ⟨[(1, 0)], [(1, [])], false, 0⟩)] 4 2 [(1, 1)] (some [6, 2])) := rfl

/-- The first S2 ranking: the sole candidate has term frequency 0 for its
only term, so its BM25L score is 0 whatever the log function. -/
theorem rankS2_zero (log : ℚ → ℚ) :
    rankBM25L log [(0, ⟨[(1, 0)], [(1, [])], false, 0⟩)] 4 2 [(1, 1)] (some [6, 2])
      = [(0, 0)] := by
  simp [rankBM25L, bm25Score, candLen, alGet, sortByDesc, insertByDesc]

set_option maxHeartbeats 4000000 in
/-- Sources of the S2 hits, independent of the value of Math.log. -/
theorem queryS2_sources (log : ℚ → ℚ) :
    ((queryModel log packS2 "alpha" { topK := some 2 }).getD []).map HitL.source
      = [some "first"] := by
  rw [queryS2_step log, rankS2_zero log]
  rfl

/-- C2: building a pack from the documents first and second of scenario
S2, mounting it, and querying alpha with top_k 2 returns a hit list whose
only element has source first, for every value of the idf log function;
in particular at least one hit has source first, so block 0 is retrievable
under the block_id plus one posting encoding. -/
theorem C2_s2_first_block_retrievable (log : ℚ → ℚ) :
    ∃ hits, queryModel log packS2 "alpha" { topK := some 2 } = some hits ∧
      ∃ h ∈ hits, h.source = some "first" := by
  rcases hq : queryModel log packS2 "alpha" { topK := some 2 } with _ | hits
  · have := queryS2_sources log
    rw [hq] at this
    simp at this
  · refine ⟨hits, rfl, ?_⟩
    have := queryS2_sources log
    rw [hq] at this
    simp only [Option.getD_some] at this
    cases hits with
    | nil => simp at this
    | cons h t =>
      refine ⟨h, List.mem_cons_self h t, ?_⟩
      simp only [List.map_cons, List.cons_eq_cons] at this
      exact this.1

/-! ## C3 and C4: filters and phrase enforcement

The namespace and source filters and the phrase enforcement run before
the query-expansion rescan, and the rescan is performed with candidate
creation enabled, so expansion can introduce hits that were never
filtered.  The claims therefore fail on the code as stated and hold when
query expansion is disabled. -/

/-- Pack of the C4 counterexample: two blocks in different namespaces
sharing the term beta. -/
def packC4cex : Pack := buildPackModel
  [⟨none, none, some "mobile", "alpha beta"⟩, ⟨none, none, some "backend", "beta gamma"⟩]

/-- C4 counterexample: querying alpha with the namespace filter mobile
(and the default options, so query expansion is enabled) returns a hit
from the backend namespace: the expansion rescan for beta creates the
candidate block 1 after the namespace filter already ran.  The result
holds for the zero log function; the hit set does not depend on the log
values because both candidate scores are forced to 0 by the position-0
encoding of first tokens.  The normalized filter set is the non-empty
set holding mobile, yet the second hit has namespace backend. -/
theorem C4_expansion_bypasses_namespace_filter :
    normFilter (some ["mobile"]) = ["mobile"] ∧
    ((queryModel (fun _ => 0) packC4cex "alpha" { nspace := some ["mobile"] }).getD []).map
        HitL.nspace = [some "mobile", some "backend"] := by
  decide

/-- C4 amended: with query expansion disabled and a namespace or source
filter whose normalized set is non-empty, every returned hit carries a
label whose normalization is a member of the respective set. -/
theorem C4_filters_respected_without_expansion (log : ℚ → ℚ) (pack : Pack) (q : String)
    (opts : QueryOpts) (hexp : qeEnabled opts = false)
    (hits : List HitL) (hres : queryModel log pack q opts = some hits)
    (h : HitL) (hmem : h ∈ hits) :
    (normFilter opts.nspace ≠ [] →
      ∃ s, h.nspace = some s ∧ normStr s ≠ "" ∧ normStr s ∈ normFilter opts.nspace) ∧
    (normFilter opts.source ≠ [] →
      ∃ s, h.source = some s ∧ normStr s ≠ "" ∧ normStr s ∈ normFilter opts.source) := by
  rcases queryHits_master hexp hres hmem with ⟨cands0, e, hmem2, htext, hsrc, hns⟩
  rcases applyPhrases_key hmem2 with ⟨e2, he2⟩
  constructor
  · intro hne
    rcases applyLblFilter_sound hne (applyLblFilter_subset he2) with ⟨s, hl, h1, h2⟩
    exact ⟨s, by rw [hns]; exact hl, h1, h2⟩
  · intro hne
    rcases applyLblFilter_sound hne he2 with ⟨s, hl, h1, h2⟩
    exact ⟨s, by rw [hsrc]; exact hl, h1, h2⟩

/-- Query options of the C4 witness: namespace filter mobile, expansion
disabled. -/
def optsC4w : QueryOpts :=
  { nspace := some ["mobile"], queryExpansion := some { enabled := some false } }

/-- C4 witness: the amended theorem applied to a concrete expansion-free
query whose single hit lies in the mobile namespace. -/
theorem C4_witness :
    qeEnabled optsC4w = false ∧
    queryModel (fun _ => 0) packC4cex "alpha" optsC4w
      = some [⟨0, 0, "alpha beta", none, some "mobile"⟩] ∧
    (⟨0, 0, "alpha beta", none, some "mobile"⟩ : HitL)
      ∈ [(⟨0, 0, "alpha beta", none, some "mobile"⟩ : HitL)] ∧
    ((normFilter optsC4w.nspace ≠ [] →
      ∃ s, (⟨0, 0, "alpha beta", none, some "mobile"⟩ : HitL).nspace = some s ∧
        normStr s ≠ "" ∧ normStr s ∈ normFilter optsC4w.nspace) ∧
     (normFilter optsC4w.source ≠ [] →
      ∃ s, (⟨0, 0, "alpha beta", none, some "mobile"⟩ : HitL).source = some s ∧
        normStr s ≠ "" ∧ normStr s ∈ normFilter optsC4w.source)) := by
  refine ⟨by decide, by decide, by decide, ?_⟩
  exact C4_filters_respected_without_expansion (fun _ => 0) packC4cex "alpha" optsC4w
    (by decide) [⟨0, 0, "alpha beta", none, some "mobile"⟩] (by decide)
    ⟨0, 0, "alpha beta", none, some "mobile"⟩ (by decide)

/-- Pack of the C3 counterexample: block 0 contains alpha, block 1 does
not, and both contain beta. -/
def packC3cex : Pack := buildPackModel
  [⟨some "a", none, none, "alpha beta gamma"⟩, ⟨some "b", none, none, "beta delta"⟩]

/-- C3 counterexample: querying the quoted phrase alpha with the default
options (query expansion enabled) returns the hit b whose block text does
not contain the required phrase: the expansion rescan for beta creates
candidate block 1 after phrase enforcement already ran.  The required
phrase set is the non-empty set holding the one-term phrase alpha. -/
theorem C3_expansion_bypasses_phrase_enforcement :
    requiredPhrases "\"alpha\"" {} = [["alpha"]] ∧
    ((queryModel (fun _ => 0) packC3cex "\"alpha\"" {}).getD []).map
        (fun h => (h.source, containsPhrase h.text ["alpha"]))
      = [(some "a", true), (some "b", false)] := by
  decide

/-- C3 amended: with query expansion disabled and a non-empty required
phrase set, every returned hit contains each required phrase as a
contiguous ordered match of its normalized tokens in the hit block
text. -/
theorem C3_phrases_enforced_without_expansion (log : ℚ → ℚ) (pack : Pack) (q : String)
    (opts : QueryOpts) (hexp : qeEnabled opts = false)
    (hits : List HitL) (hres : queryModel log pack q opts = some hits)
    (h : HitL) (hmem : h ∈ hits) :
    ∀ seq ∈ requiredPhrases q opts, containsPhrase h.text seq = true := by
  rcases queryHits_master hexp hres hmem with ⟨cands0, e, hmem2, htext, hsrc, hns⟩
  intro seq hseq
  rcases hreq : requiredPhrases q opts with _ | ⟨a, l⟩
  · rw [hreq] at hseq; cases hseq
  · rw [htext]
    rw [hreq] at hmem2
    exact applyPhrases_sound (by simp) hmem2 seq (by rw [hreq] at hseq; exact hseq)

/-- Query options of the C3 witness: expansion disabled. -/
def optsC3w : QueryOpts := { queryExpansion := some { enabled := some false } }

/-- C3 witness: the amended theorem applied to a concrete expansion-free
query with the quoted phrase alpha, whose single hit contains it. -/
theorem C3_witness :
    qeEnabled optsC3w = false ∧
    queryModel (fun _ => 0) packC3cex "\"alpha\"" optsC3w
      = some [⟨0, 0, "alpha beta gamma", some "a", none⟩] ∧
    (⟨0, 0, "alpha beta gamma", some "a", none⟩ : HitL)
      ∈ [(⟨0, 0, "alpha beta gamma", some "a", none⟩ : HitL)] ∧
    (∀ seq ∈ requiredPhrases "\"alpha\"" optsC3w,
      containsPhrase (⟨0, 0, "alpha beta gamma", some "a", none⟩ : HitL).text seq = true) := by
  refine ⟨by decide, by decide, by decide, ?_⟩
  exact C3_phrases_enforced_without_expansion (fun _ => 0) packC3cex "\"alpha\"" optsC3w
    (by decide) [⟨0, 0, "alpha beta gamma", some "a", none⟩] (by decide)
    ⟨0, 0, "alpha beta gamma", some "a", none⟩ (by decide)

/-! ## mountPack (src/pack.ts)

mountPack decodes the four length-prefixed sections of a pack file (the
metadata JSON, the lexicon entries, the posting words and the blocks
JSON) and assembles the Pack record.  The model starts from the already
decoded sections; the optional semantic tail plays no role in the claims
below and is omitted.  Notably, the function contains no check of
meta.version anywhere: every well-formed file mounts, whatever its
version number. -/

/-- One element of the v2/v3 blocks JSON array. -/
structure BlockObj where
  text : String
  heading : Option String := none
  docId : Option String := none
  nspace : Option String := none
  len : Option ℕ := none
deriving DecidableEq

/-- Decoded blocks section: a plain string array (v1) or an object
array (v2/v3).  The code sniffs the shape from the first element, so an
empty string array takes the object branch with zero iterations. -/
inductive BlocksPayload
  | strings (l : List String)
  | objects (l : List BlockObj)
deriving DecidableEq

/-- Decoded sections of a pack file as read by mountPack. -/
structure PackFile where
  meta : PackMeta
  lexicon : List (String × ℕ)
  postings : List ℕ
  blocksJson : BlocksPayload
deriving DecidableEq

/-- mountPack() of src/pack.ts over the decoded sections: the v1 branch
(non-empty string array) leaves headings, docIds, namespaces and
blockTokenLens undefined; the object branch fills all four, defaulting a
missing len to 0.  No version gate exists on any path. -/
def mountPackModel (f : PackFile) : Pack :=
  match f.blocksJson with
  | .strings (b :: r) =>
    { meta := f.meta, lexicon := f.lexicon, postings := f.postings,
      blocks := b :: r, headings := none, docIds := none, nspaces := none,
      blockTokenLens := none }
  | .strings [] =>
    { meta := f.meta, lexicon := f.lexicon, postings := f.postings,
      blocks := [], headings := some [], docIds := some [], nspaces := some [],
      blockTokenLens := some [] }
  | .objects l =>
    { meta := f.meta, lexicon := f.lexicon, postings := f.postings,
      blocks := l.map (fun b => b.text),
      headings := some (l.map (fun b => b.heading)),
      docIds := some (l.map (fun b => b.docId)),
      nspaces := some (l.map (fun b => b.nspace)),
      blockTokenLens := some (l.map (fun b => b.len.getD 0)) }

/-- A pack file carrying the far-future version 99 and an otherwise
ordinary single-block payload. -/
def fileV99 : PackFile :=
  { meta := ⟨99, ⟨1, 1, 2, none⟩⟩,
    lexicon := [("alpha", 1), ("beta", 2)],
    postings := [1, 1, 0, 0, 0, 2, 1, 1, 0, 0],
    blocksJson := .objects [{ text := "alpha beta", docId := some "d" }] }

/-- C9 counterexample: mounting a pack whose metadata version is 99, far
above any version the loader knows, does not fail with a
VersionUnsupported error: it returns a fully assembled pack handle
recording version 99, and the handle is usable, a query on it returning
the hit of its block.  mountPack contains no version check at all. -/
theorem C9_future_version_mounts :
    mountPackModel fileV99 =
      { meta := ⟨99, ⟨1, 1, 2, none⟩⟩,
        lexicon := [("alpha", 1), ("beta", 2)],
        postings := [1, 1, 0, 0, 0, 2, 1, 1, 0, 0],
        blocks := ["alpha beta"], headings := some [none],
        docIds := some [some "d"], nspaces := some [none],
        blockTokenLens := some [0] } ∧
    ((queryModel (fun _ => 0) (mountPackModel fileV99) "alpha" {}).getD []).map
        HitL.source = [some "d"] := by
  decide

/-- C9 amended: the loader performs no version gate whatsoever: changing
the version field of a pack file changes nothing but the recorded
version of the mounted pack, and the mounted pack always reports the
file's metadata unchanged.  In particular a version higher than any the
loader knows mounts exactly like a supported one, and older layouts are
loaded tolerantly through the payload branches of mountPackModel. -/
theorem C9_loader_ignores_version (f : PackFile) (v : ℕ) :
    mountPackModel { f with meta := ⟨v, f.meta.stats⟩ }
      = { mountPackModel f with meta := ⟨v, f.meta.stats⟩ } ∧
    (mountPackModel f).meta = f.meta := by
  obtain ⟨m, lex, post, bj⟩ := f
  cases bj with
  | strings l =>
    cases l with
    | nil => exact ⟨rfl, rfl⟩
    | cons a r => exact ⟨rfl, rfl⟩
  | objects l => exact ⟨rfl, rfl⟩

/-! ## Termination of the posting-stream scan (C8)

The nested while loops of scanForTermIds reach the end of the stream
exactly when the stream is empty or ends with the block terminator
followed by the term terminator; mountPack performs no such validation,
so a malformed mounted pack makes the scan read past the end forever.
Streams produced by buildIndex always end with the two terminators. -/

/-- Well-formed tail of a posting stream: empty, or ending with a block
terminator followed by a term terminator. -/
def endsTwoZeros (l : List ℕ) : Prop := l = [] ∨ ∃ u, l = u ++ [0, 0]

/-- A pack file whose posting stream is truncated inside a position
list.  mountPack accepts it unchanged. -/
def truncFile : PackFile :=
  { meta := ⟨3, ⟨1, 1, 1, none⟩⟩,
    lexicon := [("alpha", 1)],
    postings := [1, 1, 5],
    blocksJson := .objects [{ text := "alpha beta" }] }

/-- C8 counterexample: on the mounted truncated pack the single linear
pass of scanForTermIds never reaches the end of the stream, so the query
call does not terminate (the position loop keeps reading undefined past
the typed array; the model returns none exactly then).  The claim is not
true of every mounted pack because mountPack validates nothing. -/
theorem C8_scan_runs_off_malformed_stream :
    queryModel (fun _ => 0) (mountPackModel truncFile) "alpha" {} = none := by
  decide

/-- Completion of the stream scan on any stream ending with the two
terminators, from any decoder mode and state: the final two zeros force
the decoder out of the position and block loops before the end. -/
theorem scanGo_completes (cfg : ScanCfg) (w : List (ℕ × ℚ)) :
    ∀ (u l : List ℕ), l = u ++ [0, 0] → ∀ m st, scanGo cfg w l m st ≠ none := by
  intro u
  induction u with
  | nil =>
    intro l hl m st
    subst hl
    cases m with
    | top => simp [scanGo]
    | blocks tid df => simp [scanGo]
    | pos tid df b acc => simp [scanGo]
  | cons y r ih =>
    intro l hl m st
    subst hl
    rw [List.cons_append]
    cases m with
    | top =>
      simp only [scanGo]
      by_cases hy : y = 0
      · rw [if_pos hy]; exact ih _ rfl .top st
      · rw [if_neg hy]; exact ih _ rfl (.blocks y 0) st
    | blocks tid df =>
      simp only [scanGo]
      by_cases hy : y = 0
      · rw [if_pos hy]; exact ih _ rfl .top _
      · rw [if_neg hy]; exact ih _ rfl (.pos tid df y []) st
    | pos tid df b acc =>
      simp only [scanGo]
      by_cases hy : y = 0
      · rw [if_pos hy]; exact ih _ rfl (.blocks tid (df + 1)) _
      · rw [if_neg hy]; exact ih _ rfl (.pos tid df b (y :: acc)) st

/-- scanForTermIds terminates on every well-formed posting stream. -/
theorem scanStream_completes (cfg : ScanCfg) (w : List (ℕ × ℚ)) (p : List ℕ)
    (hp : endsTwoZeros p) (st : ScanState) : scanStream cfg w p st ≠ none := by
  rcases hp with rfl | ⟨u, rfl⟩
  · simp [scanStream, scanGo]
  · exact scanGo_completes cfg w u _ rfl .top st

/-- Map.set never returns the empty list. -/
theorem alSet_ne_nil (l : List (ℕ × α)) (k : ℕ) (v : α) : alSet l k v ≠ [] := by
  cases l with
  | nil => simp [alSet]
  | cons p r =>
    rw [alSet]
    split <;> simp

/-- Every binding of a Map after a set is an old binding or carries the
new value. -/
theorem mem_alSet {l : List (ℕ × α)} {k : ℕ} {v : α} {p : ℕ × α}
    (h : p ∈ alSet l k v) : p ∈ l ∨ p.2 = v := by
  induction l with
  | nil =>
    simp only [alSet, List.mem_singleton] at h
    subst h
    exact Or.inr rfl
  | cons q r ih =>
    rw [alSet] at h
    split at h
    · rcases List.mem_cons.mp h with rfl | hr
      · exact Or.inr rfl
      · exact Or.inl (List.mem_cons_of_mem q hr)
    · rcases List.mem_cons.mp h with rfl | hr
      · exact Or.inl (List.mem_cons_self q r)
      · rcases ih hr with h1 | h2
        · exact Or.inl (List.mem_cons_of_mem q h1)
        · exact Or.inr h2

/-- Merging a block preserves non-emptiness of all block maps in the
global term map: every value written is itself a Map after a set. -/
theorem mergeBlock_vals (bid : ℕ) (per : List (ℕ × List ℕ)) :
    ∀ (global : List (ℕ × List (ℕ × List ℕ))),
      (∀ p ∈ global, p.2 ≠ []) → ∀ p ∈ mergeBlock global bid per, p.2 ≠ [] := by
  induction per with
  | nil =>
    intro g hg
    simpa [mergeBlock] using hg
  | cons q r ih =>
    intro g hg p hp
    rw [mergeBlock, List.foldl_cons] at hp
    refine ih _ ?_ p (by rw [mergeBlock]; exact hp)
    intro p2 hp2
    rcases mem_alSet hp2 with hold | hnew
    · exact hg p2 hold
    · rw [hnew]
      exact alSet_ne_nil _ _ _

/-- Every term of the global map accumulated by buildIndex has at least
one block group. -/
theorem buildIndexState_vals (blocks : List Blk) :
    ∀ p ∈ (buildIndexState blocks).2, p.2 ≠ [] := by
  suffices hgen : ∀ (bs : List Blk) (acc : List (String × ℕ) × List (ℕ × List (ℕ × List ℕ))),
      (∀ p ∈ acc.2, p.2 ≠ []) →
      ∀ p ∈ (bs.foldl
        (fun acc b =>
          let res := blockTermPositions acc.1 (tokenize b.text)
          (res.1, mergeBlock acc.2 b.id res.2))
        acc).2, p.2 ≠ [] by
    intro p hp
    rw [buildIndexState] at hp
    exact hgen blocks ([], []) (by simp) p hp
  intro bs
  induction bs with
  | nil => intro acc h; exact h
  | cons b r ih =>
    intro acc h
    rw [List.foldl_cons]
    exact ih _ (mergeBlock_vals _ _ _ h)

/-- Every block entry of the stream ends with its terminator. -/
theorem flattenGroup_ends (bid : ℕ) (ps : List ℕ) :
    ∃ u, flattenGroup bid ps = u ++ [0] :=
  ⟨(bid + 1) :: ps, by simp [flattenGroup]⟩

/-- The concatenated block entries of a term with at least one block end
with a block terminator. -/
theorem flattenGroups_ends (bm : List (ℕ × List ℕ)) (hbm : bm ≠ []) :
    ∃ u, (bm.map (fun p => flattenGroup p.1 p.2)).flatten = u ++ [0] := by
  induction bm with
  | nil => exact absurd rfl hbm
  | cons p r ih =>
    cases r with
    | nil =>
      simp only [List.map_cons, List.map_nil, List.flatten_cons, List.flatten_nil,
        List.append_nil]
      exact flattenGroup_ends p.1 p.2
    | cons q r2 =>
      rcases ih (by simp) with ⟨u, hu⟩
      refine ⟨flattenGroup p.1 p.2 ++ u, ?_⟩
      rw [List.map_cons, List.flatten_cons, hu, List.append_assoc]

/-- Every term entry of the stream with at least one block ends with the
block terminator followed by the term terminator. -/
theorem flattenTerm_ends (tid : ℕ) (bm : List (ℕ × List ℕ)) (hbm : bm ≠ []) :
    ∃ u, flattenTerm tid bm = u ++ [0, 0] := by
  rcases flattenGroups_ends bm hbm with ⟨u, hu⟩
  refine ⟨tid :: u, ?_⟩
  rw [flattenTerm, hu]
  simp

/-- Unfolding of the stream flattening over the first term. -/
theorem buildPostings_cons (e : ℕ × List (ℕ × List ℕ)) (r : List (ℕ × List (ℕ × List ℕ))) :
    buildPostings (e :: r) = flattenTerm e.1 e.2 ++ buildPostings r := by
  simp [buildPostings]

/-- The flattened stream of a global map whose terms all have at least
one block is empty or ends with the two terminators. -/
theorem buildPostings_ends (g : List (ℕ × List (ℕ × List ℕ)))
    (hg : ∀ p ∈ g, p.2 ≠ []) : endsTwoZeros (buildPostings g) := by
  induction g with
  | nil => exact Or.inl rfl
  | cons e r ih =>
    rcases flattenTerm_ends e.1 e.2 (hg e (List.mem_cons_self e r)) with ⟨u, hu⟩
    rcases ih (fun p hp => hg p (List.mem_cons_of_mem e hp)) with h0 | ⟨v, hv⟩
    · exact Or.inr ⟨u, by rw [buildPostings_cons, h0, List.append_nil, hu]⟩
    · exact Or.inr ⟨flattenTerm e.1 e.2 ++ v,
        by rw [buildPostings_cons, hv, List.append_assoc]⟩

/-- Every posting stream produced by buildIndex is well formed: empty or
ending with the two terminators. -/
theorem buildIndex_ends (blocks : List Blk) : endsTwoZeros (buildIndex blocks).postings :=
  buildPostings_ends _ (buildIndexState_vals blocks)

/-- The expansion rescan cannot fail on a well-formed stream. -/
theorem expansionStage_ne_none {log : ℚ → ℚ} {pack : Pack} {q : String} {opts : QueryOpts}
    {topK : ℕ} {termSet : List ℕ} {reqd : List (List String)}
    {cands4 : List (ℕ × CandEntry)} {dfs : List (ℕ × ℕ)} {avgLen docCount : ℚ}
    {prelim1 : List (ℕ × ℚ)} (hp : endsTwoZeros pack.postings)
    (hn : expansionStage log pack q opts topK termSet reqd cands4 dfs avgLen docCount
      prelim1 = none) : False := by
  simp only [expansionStage] at hn
  split at hn
  · split at hn
    · cases hn
    · split at hn
      · rename_i heq
        exact scanStream_completes _ _ _ hp _ heq
      · cases hn
  · cases hn

/-- A query on a pack with a well-formed posting stream never hits the
non-terminating scan: all three scans walk pack.postings. -/
theorem queryModel_ne_none (log : ℚ → ℚ) (pack : Pack) (hp : endsTwoZeros pack.postings)
    (q : String) (opts : QueryOpts) : queryModel log pack q opts ≠ none := by
  intro hnone
  simp only [queryModel] at hnone
  split at hnone
  · rename_i heq1
    split at heq1
    · cases heq1
    · exact scanStream_completes _ _ _ hp _ heq1
  · rename_i st1 heq1
    split at hnone
    · rename_i heq2
      split at heq2
      · split at heq2
        · cases heq2
        · exact scanStream_completes _ _ _ hp _ heq2
      · cases heq2
    · rename_i st2 heq2
      split at hnone
      · cases hnone
      · exact expansionStage_ne_none hp hnone

/-- C8 amended: every query call on a pack built by buildPack and
mounted terminates, whatever the documents, the query text, the options
and the log function: the builder's posting streams always end with the
block terminator followed by the term terminator, and the two-zero tail
drives the scanner of scanForTermIds out of its inner loops exactly at
the end of the stream, on the main scan, the phrase-rescue scan and the
expansion rescan alike.  The original claim quantified over every
mounted pack; mountPack validates nothing, so it fails on the truncated
mounted pack of the counterexample. -/
theorem C8_query_terminates_on_built_packs (log : ℚ → ℚ) (docs : List BuildDoc)
    (q : String) (opts : QueryOpts) :
    queryModel log (buildPackModel docs) q opts ≠ none := by
  refine queryModel_ne_none log _ ?_ q opts
  show endsTwoZeros (buildIndex _).postings
  exact buildIndex_ends _

/-! ## C6: the BM25L worked example -/

/-- C6: for the single candidate block with persisted token length 10,
average block length 10, one matched term with frequency 2, query-time
document frequency 1 and doc count 2, rankBM25L with the default
constants k1 = 1.5 and b = 0.75 scores the block log 2 times 10/7 for
every log function: the idf argument 1 + (2 - 1 + 0.5)/(1 + 0.5)
evaluates to 2 and the term quotient tf(k1+1)/(tf + k1(1 - b + b len/avg))
to 5/3.5 = 10/7.  With Math.log the natural logarithm the score is
ln 2 times 10/7, which is 0.990 to three decimals. -/
theorem C6_bm25l_single_candidate :
    (∀ log : ℚ → ℚ,
      rankBM25L log [(0, ⟨[(1, 2)], [], false, 0⟩)] 10 2 [(1, 1)] (some [10])
        = [(0, log 2 * (10/7))]) ∧
    |Real.log 2 * (10/7) - 99/100| < 1/1000 := by
  constructor
  · intro log
    have harg : (1 + ((2 : ℚ) - 1 + 1/2) / (1 + 1/2)) = 2 := by norm_num
    simp only [rankBM25L, bm25Score, candLen, sortByDesc, insertByDesc, minCoverSpan,
      proximityMultiplier, alGet, List.foldl_cons, List.foldl_nil, List.map_cons,
      List.map_nil]
    norm_num [harg]
  · rw [abs_lt]
    constructor <;> nlinarith [Real.log_two_gt_d9, Real.log_two_lt_d9]

/-! ## Semantic section of the builder (C10)

buildSemanticSection of src/builder.ts validates the embeddings array
(length, presence, dimensionality) and quantizes each embedding through
quantizeEmbeddingInt8L2Norm of packages/core/src/semantic.ts.  The
arithmetic runs on JavaScript floats, where NaN and the infinities flow
through every operation without throwing; FVal models a float as a
finite rational or one of the three non-finite values (float32 rounding
of finite values is not modeled; it plays no part in which inputs
validate, since the quantizer never throws).  Math.sqrt enters only
through the norm, and is passed as an explicit function parameter. -/

/-- A JavaScript number: finite (as an exact rational), NaN, or an
infinity. -/
inductive FVal
  | fin (x : ℚ)
  | nan
  | inf
  | ninf
deriving DecidableEq

/-- Float addition on the model: NaN propagates, opposite infinities
give NaN, an infinity absorbs finite values. -/
def fadd : FVal → FVal → FVal
  | .nan, _ => .nan
  | _, .nan => .nan
  | .inf, .ninf => .nan
  | .ninf, .inf => .nan
  | .inf, _ => .inf
  | _, .inf => .inf
  | .ninf, _ => .ninf
  | _, .ninf => .ninf
  | .fin a, .fin b => .fin (a + b)

/-- Float multiplication: NaN propagates, infinity times zero is NaN,
infinity times a nonzero finite value keeps the sign rule. -/
def fmul : FVal → FVal → FVal
  | .nan, _ => .nan
  | _, .nan => .nan
  | .inf, .inf => .inf
  | .inf, .ninf => .ninf
  | .ninf, .inf => .ninf
  | .ninf, .ninf => .inf
  | .inf, .fin b => if b = 0 then .nan else if 0 < b then .inf else .ninf
  | .fin a, .inf => if a = 0 then .nan else if 0 < a then .inf else .ninf
  | .ninf, .fin b => if b = 0 then .nan else if 0 < b then .ninf else .inf
  | .fin a, .ninf => if a = 0 then .nan else if 0 < a then .ninf else .inf
  | .fin a, .fin b => .fin (a * b)

/-- Float division: NaN propagates, infinity over infinity is NaN, a
finite value over an infinity is zero, a nonzero value over zero is a
signed infinity, zero over zero is NaN (the sign of zero is not
modeled). -/
def fdiv : FVal → FVal → FVal
  | .nan, _ => .nan
  | _, .nan => .nan
  | .inf, .inf => .nan
  | .inf, .ninf => .nan
  | .ninf, .inf => .nan
  | .ninf, .ninf => .nan
  | .inf, .fin b => if 0 ≤ b then .inf else .ninf
  | .ninf, .fin b => if 0 ≤ b then .ninf else .inf
  | .fin _, .inf => .fin 0
  | .fin _, .ninf => .fin 0
  | .fin a, .fin b =>
    if b = 0 then (if a = 0 then .nan else if 0 < a then .inf else .ninf)
    else .fin (a / b)

/-- Math.abs on the model. -/
def fabs : FVal → FVal
  | .nan => .nan
  | .inf => .inf
  | .ninf => .inf
  | .fin a => .fin |a|

/-- Strict float comparison: any comparison with NaN is false. -/
def fgt : FVal → FVal → Bool
  | .nan, _ => false
  | _, .nan => false
  | .inf, .inf => false
  | .inf, _ => true
  | _, .inf => false
  | .ninf, .ninf => false
  | _, .ninf => true
  | .ninf, _ => false
  | .fin a, .fin b => decide (b < a)

/-- Math.round: half-way cases round towards positive infinity; NaN and
the infinities pass through. -/
def fround : FVal → FVal
  | .nan => .nan
  | .inf => .inf
  | .ninf => .ninf
  | .fin a => .fin ((⌊a + 1/2⌋ : ℤ) : ℚ)

/-- clampInt8() of packages/core/src/semantic.ts: both comparisons are
false on NaN, so NaN passes through unclamped. -/
def clampInt8 (v : FVal) : FVal :=
  if fgt v (.fin 127) then .fin 127
  else if fgt (.fin (-127)) v then .fin (-127)
  else v

/-- Int8Array element store after round and clamp: the value is an
integer in range or NaN, and storing NaN yields 0. -/
def toInt8 : FVal → ℤ
  | .fin a => ⌊a⌋
  | _ => 0

/-- quantizeEmbeddingInt8L2Norm() of packages/core/src/semantic.ts over
the float model, with Math.sqrt passed in: compute the squared norm, take
its root, return zeros with scale 0 when the norm is exactly 0; otherwise
normalize, find the largest absolute value through NaN-rejecting
comparisons, derive the scale, return zeros when the scale is exactly 0,
else the rounded and clamped quantized vector.  The function throws on no
input. -/
def quantizeEmbeddingInt8L2Norm (fsqrt : FVal → FVal) (e : List FVal) :
    List ℤ × FVal :=
  let normSq := e.foldl (fun acc x => fadd acc (fmul x x)) (.fin 0)
  let norm := fsqrt normSq
  if norm = .fin 0 then (e.map (fun _ => 0), .fin 0)
  else
    let normalized := e.map (fun x => fdiv x norm)
    let maxAbs := normalized.foldl
      (fun m v => if fgt (fabs v) m then fabs v else m) (.fin 0)
    let scale := fdiv maxAbs (.fin 127)
    if scale = .fin 0 then (e.map (fun _ => 0), .fin 0)
    else (normalized.map (fun v => toInt8 (clampInt8 (fround (fdiv v scale)))), scale)

/-- Validation errors of buildSemanticSection, with the data each error
message carries. -/
inductive SemErr
  | lengthMismatch (expected : ℕ)
  | zeroDims
  | notFloat32 (i : ℕ)
  | dimsMismatch (i : ℕ) (expected : ℕ) (got : ℕ)
deriving DecidableEq

/-- Per-embedding loop of buildSemanticSection, carrying the running
index: a missing entry (anything but a Float32Array) fails naming its
index, a dimension mismatch fails naming its index and both lengths, and
a valid entry is quantized; the quantizer itself never fails. -/
def semLoop (fsqrt : FVal → FVal) (dims : ℕ) :
    ℕ → List (Option (List FVal)) → Except SemErr (List (List ℤ) × List FVal)
  | _, [] => .ok ([], [])
  | i, none :: _ => .error (.notFloat32 i)
  | i, some v :: rest =>
    if v.length ≠ dims then .error (.dimsMismatch i dims v.length)
    else
      match semLoop fsqrt dims (i + 1) rest with
      | .error err => .error err
      | .ok pr =>
        let r := quantizeEmbeddingInt8L2Norm fsqrt v
        .ok (r.1 :: pr.1, r.2 :: pr.2)

/-- buildSemanticSection() of src/builder.ts over the float model (for
the default quantization type): check the embeddings count against the
block count, derive the dimensionality from the first embedding and
reject 0, then run the per-embedding loop.  An entry is none when
embeddings[i] is absent or not a Float32Array. -/
def buildSemanticSection (fsqrt : FVal → FVal) (blockCount : ℕ)
    (embeddings : List (Option (List FVal))) :
    Except SemErr (List (List ℤ) × List FVal) :=
  if embeddings.length ≠ blockCount then .error (.lengthMismatch blockCount)
  else
    let dims := ((embeddings.head?.bind id).map List.length).getD 0
    if dims = 0 then .error .zeroDims
    else semLoop fsqrt dims 0 embeddings

deriving instance DecidableEq for Except

/-- Math.sqrt on the values reached in the counterexample: the root of
NaN is NaN and the root of positive infinity is positive infinity;
positive finite arguments, whose roots are irrational in general, do not
occur there and are mapped to NaN. -/
def fsqrtCex : FVal → FVal
  | .nan => .nan
  | .inf => .inf
  | .ninf => .nan
  | .fin a => if a = 0 then .fin 0 else .nan

/-- C10 counterexample: building the semantic section over one block
whose single embedding is the one-dimensional vector holding NaN, or
holding Infinity, does not fail: no finiteness validation exists, the
quantizer's comparisons all reject NaN so the maximum absolute value
stays 0, and the build succeeds returning the zero vector with scale 0.
The claim says a non-finite embedding fails the build with an error
naming its index. -/
theorem C10_nonfinite_embedding_builds :
    buildSemanticSection fsqrtCex 1 [some [.nan]] = .ok ([[0]], [.fin 0]) ∧
    buildSemanticSection fsqrtCex 1 [some [.inf]] = .ok ([[0]], [.fin 0]) := by
  decide

/-- Ok results of the loop exist exactly when every entry is present with
the expected dimensionality. -/
theorem semLoop_ok_iff (fsqrt : FVal → FVal) (dims : ℕ) :
    ∀ (l : List (Option (List FVal))) (i : ℕ),
      (∃ out, semLoop fsqrt dims i l = .ok out) ↔
        ∀ e ∈ l, ∃ v, e = some v ∧ v.length = dims := by
  intro l
  induction l with
  | nil => intro i; simp [semLoop]
  | cons e rest ih =>
    intro i
    cases e with
    | none =>
      rw [semLoop]
      constructor
      · rintro ⟨out, hout⟩
        cases hout
      · intro hall
        rcases hall none (List.mem_cons_self _ _) with ⟨v, hv, _⟩
        cases hv
    | some v =>
      rw [semLoop]
      by_cases hv : v.length = dims
      · rw [if_neg (by simp [hv])]
        cases hrec : semLoop fsqrt dims (i + 1) rest with
        | error err =>
          simp only [hrec]
          constructor
          · rintro ⟨out, hout⟩
            cases hout
          · intro hall
            rcases (ih (i + 1)).mpr (fun e2 he2 => hall e2 (List.mem_cons_of_mem _ he2))
              with ⟨out, hout⟩
            rw [hrec] at hout
            cases hout
        | ok pr =>
          simp only [hrec]
          constructor
          · intro _ e2 he2
            rcases List.mem_cons.mp he2 with rfl | hrest
            · exact ⟨v, rfl, hv⟩
            · exact ((ih (i + 1)).mp ⟨pr, hrec⟩) e2 hrest
          · intro _
            exact ⟨_, rfl⟩
      · rw [if_pos hv]
        constructor
        · rintro ⟨out, hout⟩
          cases hout
        · intro hall
          rcases hall (some v) (List.mem_cons_self _ _) with ⟨v2, hv2, hlen⟩
          injection hv2 with hv2
          subst hv2
          exact absurd hlen hv

/-- A missing-entry error of the loop names the index of a missing
entry. -/
theorem semLoop_err_none (fsqrt : FVal → FVal) (dims : ℕ) :
    ∀ (l : List (Option (List FVal))) (i j : ℕ),
      semLoop fsqrt dims i l = .error (.notFloat32 j) →
      i ≤ j ∧ l.get? (j - i) = some none := by
  intro l
  induction l with
  | nil =>
    intro i j h
    cases h
  | cons e rest ih =>
    intro i j h
    cases e with
    | none =>
      rw [semLoop] at h
      injection h with h
      injection h with h
      subst h
      exact ⟨le_refl i, by simp⟩
    | some v =>
      rw [semLoop] at h
      split at h
      · injection h with h
        cases h
      · split at h
        · rename_i err heq
          injection h with h
          subst h
          rcases ih (i + 1) j heq with ⟨hle, hget⟩
          have hji : j - i = (j - (i + 1)) + 1 := by omega
          rw [hji]
          exact ⟨by omega, by simpa using hget⟩
        · cases h

/-- A dimension-mismatch error of the loop names the index of an entry
whose length is the reported one and differs from the expected one. -/
theorem semLoop_err_dims (fsqrt : FVal → FVal) (dims : ℕ) :
    ∀ (l : List (Option (List FVal))) (i j d g : ℕ),
      semLoop fsqrt dims i l = .error (.dimsMismatch j d g) →
      i ≤ j ∧ ∃ v, l.get? (j - i) = some (some v) ∧ v.length = g ∧ g ≠ d := by
  intro l
  induction l with
  | nil =>
    intro i j d g h
    cases h
  | cons e rest ih =>
    intro i j d g h
    cases e with
    | none =>
      rw [semLoop] at h
      injection h with h
      cases h
    | some v =>
      rw [semLoop] at h
      split at h
      · rename_i hne
        injection h with h
        injection h with h1 h2 h3
        subst h1
        subst h2
        subst h3
        refine ⟨le_refl i, v, by simp, rfl, ?_⟩
        simpa using hne
      · split at h
        · rename_i err heq
          injection h with h
          subst h
          rcases ih (i + 1) j d g heq with ⟨hle, v2, hget, hlen, hne⟩
          have hji : j - i = (j - (i + 1)) + 1 := by omega
          rw [hji]
          exact ⟨by omega, v2, by simpa using hget, hlen, hne⟩
        · cases h

/-- C10 amended: building the semantic section succeeds exactly when the
embeddings count matches the block count, the first embedding is present
with a nonzero dimensionality, and every embedding is present with that
same dimensionality; finiteness is never validated, non-finite vectors
silently quantizing to zeros with scale 0 as the counterexample shows.
When the build fails over a present count with a missing embedding, the
error names an index holding a missing embedding, and a
dimension-mismatch error names an index whose embedding has the reported
differing length, for every sqrt model, block count and embeddings
array. -/
theorem C10_semantic_section_validation (fsqrt : FVal → FVal) (blockCount : ℕ)
    (embeddings : List (Option (List FVal))) :
    ((∃ out, buildSemanticSection fsqrt blockCount embeddings = .ok out) ↔
      embeddings.length = blockCount ∧
      ((embeddings.head?.bind id).map List.length).getD 0 ≠ 0 ∧
      ∀ e ∈ embeddings, ∃ v, e = some v ∧
        v.length = ((embeddings.head?.bind id).map List.length).getD 0) ∧
    (∀ i, buildSemanticSection fsqrt blockCount embeddings = .error (.notFloat32 i) →
      embeddings.get? i = some none) ∧
    (∀ i d g, buildSemanticSection fsqrt blockCount embeddings
        = .error (.dimsMismatch i d g) →
      ∃ v, embeddings.get? i = some (some v) ∧ v.length = g ∧ g ≠ d) := by
  refine ⟨?_, ?_, ?_⟩
  · simp only [buildSemanticSection]
    by_cases hlen : embeddings.length = blockCount
    · rw [if_neg (by simp [hlen])]
      by_cases hd : ((embeddings.head?.bind id).map List.length).getD 0 = 0
      · rw [if_pos hd]
        constructor
        · rintro ⟨out, hout⟩
          cases hout
        · rintro ⟨_, hd2, _⟩
          exact absurd hd hd2
      · rw [if_neg hd, semLoop_ok_iff]
        constructor
        · intro hall
          exact ⟨hlen, hd, hall⟩
        · rintro ⟨_, _, hall⟩
          exact hall
    · rw [if_pos hlen]
      constructor
      · rintro ⟨out, hout⟩
        cases hout
      · rintro ⟨hl, _, _⟩
        exact absurd hl hlen
  · intro i h
    simp only [buildSemanticSection] at h
    split at h
    · simp at h
    · split at h
      · simp at h
      · simpa using (semLoop_err_none fsqrt _ embeddings 0 i h).2
  · intro i d g h
    simp only [buildSemanticSection] at h
    split at h
    · simp at h
    · split at h
      · simp at h
      · rcases semLoop_err_dims fsqrt _ embeddings 0 i d g h with ⟨_, v, hget, hlen, hne⟩
        exact ⟨v, by simpa using hget, hlen, hne⟩

end Knolo
